import Mathlib

/-!
Verification of the chunked concurrent TTS pipeline in `app/main.py`
(soula-gate-text-to-audio).  Text is modelled as `List Char`, Python
timestamps as `Int` seconds, audio sample arrays as `List Int`
(individual `np.float32` sample values are opaque to every property
proved here; only emptiness, length and the zero constant matter).
Python dicts are modelled as association lists in insertion order:
updating an existing key keeps its position, inserting a new key
appends at the end, exactly as CPython dicts behave.
-/

namespace SoulGate

/-- Python ASCII whitespace, the character class that `str.split()`,
`str.strip()` and the regex class `\s` use on the ASCII inputs
considered here. -/
def isWS (c : Char) : Bool :=
  c = ' ' || c = '\t' || c = '\n' || c = '\r' || c = '\x0b' || c = '\x0c'

/-- Characters of `l` that are not whitespace, in order.  Used to state
the reconstruction properties of the segmenter. -/
def nonWS (l : List Char) : List Char := l.filter (fun c => !(isWS c))

/-- Helper for `pyWords`: `acc` is the current word, reversed. -/
def pyWordsAux (acc : List Char) : List Char → List (List Char)
  | [] => if acc.isEmpty then [] else [acc.reverse]
  | c :: cs =>
    if isWS c then
      if acc.isEmpty then pyWordsAux [] cs else acc.reverse :: pyWordsAux [] cs
    else pyWordsAux (c :: acc) cs

/-- Python `str.split()` with no argument: maximal runs of
non-whitespace characters, empty pieces discarded. -/
def pyWords (l : List Char) : List (List Char) := pyWordsAux [] l

/-- Python `str.strip()`: drop leading and trailing whitespace. -/
def pyStrip (l : List Char) : List Char :=
  ((l.dropWhile isWS).reverse.dropWhile isWS).reverse

/-- Python `' '.join(ws)`. -/
def joinSp : List (List Char) → List Char
  | [] => []
  | [w] => w
  | w :: ws => w ++ ' ' :: joinSp ws

/-- Sentence-terminal punctuation, the regex class in
`re.split(r'[.!?]+\s+', ...)` of `smart_text_split` (main.py line 155). -/
def isSentEnd (c : Char) : Bool := c = '.' || c = '!' || c = '?'

/-- Scanner for `re.split(r'[.!?]+\s+', text)`: a match is a maximal run
of sentence-terminal punctuation immediately followed by at least one
whitespace character; the match (punctuation and whitespace) is removed
and a piece boundary is placed there.  `acc` is the current piece,
reversed. -/
def splitSentencesGo (fuel : Nat) (acc : List Char) (l : List Char) : List (List Char) :=
  match fuel, l with
  | _, [] => [acc.reverse]
  | 0, _ => [acc.reverse]
  | fuel + 1, c :: rest =>
    if isSentEnd c then
      if (List.dropWhile isSentEnd rest).head?.elim false isWS then
        acc.reverse ::
          splitSentencesGo fuel [] (List.dropWhile isWS (List.dropWhile isSentEnd rest))
      else
        splitSentencesGo fuel ((c :: List.takeWhile isSentEnd rest).reverse ++ acc)
          (List.dropWhile isSentEnd rest)
    else
      splitSentencesGo fuel (c :: acc) rest

/-- The sentence split `re.split(r'[.!?]+\s+', text)` (main.py
line 155).  Every `splitSentencesGo` step consumes at least one input
character, so a fuel equal to the input length is never exhausted. -/
def splitSentences (l : List Char) : List (List Char) := splitSentencesGo l.length [] l

/-- Scanner for `re.split(r',\s+', sentence)` (main.py line 169): a
match is one comma immediately followed by at least one whitespace
character. -/
def splitCommaGo (fuel : Nat) (acc : List Char) (l : List Char) : List (List Char) :=
  match fuel, l with
  | _, [] => [acc.reverse]
  | 0, _ => [acc.reverse]
  | fuel + 1, c :: rest =>
    if c = ',' && rest.head?.elim false isWS then
      acc.reverse :: splitCommaGo fuel [] (List.dropWhile isWS rest)
    else
      splitCommaGo fuel (c :: acc) rest

/-- The clause split `re.split(r',\s+', sentence)` (main.py line 169).
Every step consumes at least one input character, so a fuel equal to
the input length is never exhausted. -/
def splitCommaParts (l : List Char) : List (List Char) := splitCommaGo l.length [] l

/-- The slicing loop `for i in range(0, len(part_words), max_words)`
of main.py lines 174-176: consecutive groups of at most `m` elements.
Python raises `ValueError` for step `m = 0`; that case is unreachable
in the program (`max_chunk_words >= 5`) and modelled as `[]`. -/
def chunkEveryFuel (m : Nat) (fuel : Nat) (l : List α) : List (List α) :=
  match fuel, l with
  | _, [] => []
  | 0, _ => []
  | fuel + 1, x :: xs =>
    if m = 0 then []
    else (x :: xs).take m :: chunkEveryFuel m fuel ((x :: xs).drop m)

/-- Entry point for the slicing loop: every step with `m > 0` removes
at least one element, so a fuel equal to the list length is never
exhausted. -/
def chunkEvery (m : Nat) (l : List α) : List (List α) := chunkEveryFuel m l.length l

/-- Accumulator of `smart_text_split`: the list `chunks` built so far
and the string `current_chunk`. -/
structure SplitState where
  chunks : List (List Char)
  cur : List Char

/-- The shared greedy-packing step of main.py lines 178-182 and
185-189: flush `current_chunk` when adding the next piece would exceed
`m` words, otherwise merge the piece into `current_chunk` with a
space. -/
def greedyPack (m : Nat) (st : SplitState) (piece : List Char) : SplitState :=
  if st.cur ≠ [] ∧ m < (pyWords st.cur).length + (pyWords piece).length then
    ⟨st.chunks ++ [pyStrip st.cur], piece⟩
  else
    ⟨st.chunks, pyStrip (st.cur ++ ' ' :: piece)⟩

/-- Processing of one comma part (main.py lines 170-182). -/
def processPart (m : Nat) (st : SplitState) (p : List Char) : SplitState :=
  if m < (pyWords p).length then
    ⟨st.chunks ++ (chunkEvery m (pyWords p)).map joinSp, st.cur⟩
  else greedyPack m st p

/-- Processing of one sentence (main.py lines 160-189). -/
def processSentence (m : Nat) (st : SplitState) (s : List Char) : SplitState :=
  if pyStrip s = [] then st
  else if m < (pyWords s).length then
    (splitCommaParts s).foldl (processPart m) st
  else greedyPack m st s

/-- The text segmenter `smart_text_split(text, max_words)` of main.py
lines 147-194, translated clause by clause. -/
def smart_text_split (text : List Char) (m : Nat) : List (List Char) :=
  let sentences := splitSentences (pyStrip text)
  let st := sentences.foldl (processSentence m) ⟨[], []⟩
  let chunks := if pyStrip st.cur ≠ [] then st.chunks ++ [pyStrip st.cur] else st.chunks
  chunks.filter (fun c => pyStrip c ≠ [])

/-- Word count of a chunk, `len(chunk.split())` as the code counts. -/
def wordCount (l : List Char) : Nat := (pyWords l).length

/-- Invariant of the segmentation fold: every finished chunk and the
running chunk stay within `m` words. -/
def wordsBounded (m : Nat) (st : SplitState) : Prop :=
  (∀ c ∈ st.chunks, wordCount c ≤ m) ∧ wordCount st.cur ≤ m

/-- Non-whitespace content accumulated in a segmentation state, in
order: finished chunks then the running chunk. -/
def stateContent (st : SplitState) : List Char :=
  (st.chunks.map nonWS).flatten ++ nonWS st.cur

/-! ### MD5 (`hashlib.md5(...).hexdigest()`), on `Nat` bytes mod 2^32 -/

/-- Addition modulo 2^32. -/
def add32 (a b : Nat) : Nat := (a + b) % 4294967296

/-- Bitwise complement of a 32-bit word. -/
def not32 (a : Nat) : Nat := Nat.xor a 4294967295

/-- Left rotation of a 32-bit word by `s` bits. -/
def rotl32 (x s : Nat) : Nat := (x * 2 ^ s) % 4294967296 + x % 4294967296 / 2 ^ (32 - s)

/-- The 64 MD5 round constants `K` (floor(abs(sin(i+1)) * 2^32)). -/
def md5K : List Nat :=
  [0xd76aa478, 0xe8c7b756, 0x242070db, 0xc1bdceee,
   0xf57c0faf, 0x4787c62a, 0xa8304613, 0xfd469501,
   0x698098d8, 0x8b44f7af, 0xffff5bb1, 0x895cd7be,
   0x6b901122, 0xfd987193, 0xa679438e, 0x49b40821,
   0xf61e2562, 0xc040b340, 0x265e5a51, 0xe9b6c7aa,
   0xd62f105d, 0x02441453, 0xd8a1e681, 0xe7d3fbc8,
   0x21e1cde6, 0xc33707d6, 0xf4d50d87, 0x455a14ed,
   0xa9e3e905, 0xfcefa3f8, 0x676f02d9, 0x8d2a4c8a,
   0xfffa3942, 0x8771f681, 0x6d9d6122, 0xfde5380c,
   0xa4beea44, 0x4bdecfa9, 0xf6bb4b60, 0xbebfbc70,
   0x289b7ec6, 0xeaa127fa, 0xd4ef3085, 0x04881d05,
   0xd9d4d039, 0xe6db99e5, 0x1fa27cf8, 0xc4ac5665,
   0xf4292244, 0x432aff97, 0xab9423a7, 0xfc93a039,
   0x655b59c3, 0x8f0ccc92, 0xffeff47d, 0x85845dd1,
   0x6fa87e4f, 0xfe2ce6e0, 0xa3014314, 0x4e0811a1,
   0xf7537e82, 0xbd3af235, 0x2ad7d2bb, 0xeb86d391]

/-- The 64 MD5 per-round left-rotation amounts. -/
def md5S : List Nat :=
  [7, 12, 17, 22, 7, 12, 17, 22, 7, 12, 17, 22, 7, 12, 17, 22,
   5, 9, 14, 20, 5, 9, 14, 20, 5, 9, 14, 20, 5, 9, 14, 20,
   4, 11, 16, 23, 4, 11, 16, 23, 4, 11, 16, 23, 4, 11, 16, 23,
   6, 10, 15, 21, 6, 10, 15, 21, 6, 10, 15, 21, 6, 10, 15, 21]

/-- One MD5 round: `m` is the 16-word message block, `st = (A, B, C, D)`. -/
def md5Step (m : List Nat) (st : Nat × Nat × Nat × Nat) (i : Nat) : Nat × Nat × Nat × Nat :=
  let a := st.1
  let b := st.2.1
  let c := st.2.2.1
  let d := st.2.2.2
  let f :=
    if i < 16 then Nat.lor (Nat.land b c) (Nat.land (not32 b) d)
    else if i < 32 then Nat.lor (Nat.land d b) (Nat.land (not32 d) c)
    else if i < 48 then Nat.xor b (Nat.xor c d)
    else Nat.xor c (Nat.lor b (not32 d))
  let g :=
    if i < 16 then i
    else if i < 32 then (5 * i + 1) % 16
    else if i < 48 then (3 * i + 5) % 16
    else (7 * i) % 16
  let f2 := add32 (add32 (add32 f a) (md5K.getD i 0)) (m.getD g 0)
  (d, add32 b (rotl32 f2 (md5S.getD i 0)), b, c)

/-- Process one padded 64-byte block (given as 16 little-endian words). -/
def md5Block (st : Nat × Nat × Nat × Nat) (m : List Nat) : Nat × Nat × Nat × Nat :=
  let r := (List.range 64).foldl (md5Step m) st
  (add32 st.1 r.1, add32 st.2.1 r.2.1, add32 st.2.2.1 r.2.2.1, add32 st.2.2.2 r.2.2.2)

/-- Little-endian serialization of `n` into `k` bytes. -/
def leBytes (k n : Nat) : List Nat := (List.range k).map (fun i => n / 2 ^ (8 * i) % 256)

/-- MD5 padding: 0x80, zeros to 56 mod 64, then the 64-bit bit length. -/
def md5Pad (msg : List Nat) : List Nat :=
  msg ++ 128 :: List.replicate ((56 + 64 - (msg.length + 1) % 64) % 64) 0 ++
    leBytes 8 (8 * msg.length)

/-- Four little-endian bytes to one 32-bit word. -/
def leWord (bs : List Nat) : Nat :=
  bs.getD 0 0 + 256 * bs.getD 1 0 + 65536 * bs.getD 2 0 + 16777216 * bs.getD 3 0

/-- The 16 digest bytes of the MD5 of a byte message. -/
def md5Bytes (msg : List Nat) : List Nat :=
  let blocks := chunkEvery 64 (md5Pad msg)
  let st := blocks.foldl (fun st blk => md5Block st ((chunkEvery 4 blk).map leWord))
    (0x67452301, 0xefcdab89, 0x98badcfe, 0x10325476)
  leBytes 4 st.1 ++ leBytes 4 st.2.1 ++ leBytes 4 st.2.2.1 ++ leBytes 4 st.2.2.2

/-- A nibble as a lowercase hex character. -/
def hexDigit (n : Nat) : Char := if n < 10 then Char.ofNat (48 + n) else Char.ofNat (87 + n)

/-- Lowercase hex digest of a byte message, `hashlib.md5(bytes).hexdigest()`. -/
def md5Hex (msg : List Nat) : String :=
  String.mk (((md5Bytes msg).map (fun b => [hexDigit (b / 16), hexDigit (b % 16)])).flatten)

/-- UTF-8 encoding of one character, `str.encode()` per code point. -/
def utf8Bytes (c : Char) : List Nat :=
  let n := c.toNat
  if n < 128 then [n]
  else if n < 2048 then [192 + n / 64, 128 + n % 64]
  else if n < 65536 then [224 + n / 4096, 128 + n / 64 % 64, 128 + n % 64]
  else [240 + n / 262144, 128 + n / 4096 % 64, 128 + n / 64 % 64, 128 + n % 64]

/-- UTF-8 bytes of a string, `content.encode()`. -/
def strBytes (s : String) : List Nat := (s.toList.map utf8Bytes).flatten

/-- The pre-hash content string `f"{text}:{voice}:{speed}:{lang}"` of
main.py line 57, at character level.  `speed` stands for the f-string
rendering of the float speed (for example "1.0"); float formatting
itself is outside the model. -/
def cacheKeyContent (text voice speed lang : List Char) : List Char :=
  text ++ ':' :: (voice ++ ':' :: (speed ++ ':' :: lang))

/-- The cache key function `get_audio_cache_key` (main.py lines 55-58):
MD5 hex digest of the colon-joined content string. -/
def get_audio_cache_key (text voice speed lang : String) : String :=
  md5Hex (((cacheKeyContent text.toList voice.toList speed.toList lang.toList).map
    utf8Bytes).flatten)

/-! ### Audio Result Cache (main.py lines 39-42, 61-87) -/

/-- One cached entry: (audio samples, timestamp in seconds). -/
abbrev AudioEntry := List Int × Int

/-- The audio cache dict, as an insertion-ordered association list. -/
abbrev AudioCache := List (String × AudioEntry)

/-- TTL of the audio cache, main.py line 42. -/
def cacheTTL : Int := 3600

/-- Capacity of the audio cache, main.py line 41. -/
def maxCacheSize : Nat := 100

/-- Python `key in d` for an insertion-ordered dict. -/
def dictMem {V : Type} (k : String) (d : List (String × V)) : Bool :=
  d.any (fun p => p.1 == k)

/-- Python `d[key]` lookup. -/
def dictGet {V : Type} (k : String) (d : List (String × V)) : Option V :=
  (d.find? (fun p => p.1 == k)).map (fun p => p.2)

/-- Python `d[key] = v`: update in place when the key exists, append a
new entry otherwise, like a CPython dict. -/
def dictSet {V : Type} (k : String) (v : V) (d : List (String × V)) : List (String × V) :=
  if dictMem k d then d.map (fun p => if p.1 == k then (k, v) else p) else d ++ [(k, v)]

/-- Python `del d[key]`. -/
def dictDel {V : Type} (k : String) (d : List (String × V)) : List (String × V) :=
  d.filter (fun p => !(p.1 == k))

/-- The lookup `get_cached_audio` (main.py lines 61-73): a fresh entry
is returned and its timestamp refreshed to `now`; an expired entry is
deleted and the lookup is a miss.  Returns (result, updated cache). -/
def get_cached_audio (cache_key : String) (now : Int) (c : AudioCache) :
    Option (List Int) × AudioCache :=
  match dictGet cache_key c with
  | some (audio, ts) =>
    if now - ts < cacheTTL then (some audio, dictSet cache_key (audio, now) c)
    else (none, dictDel cache_key c)
  | none => (none, c)

/-- Sort order of the eviction pass, `items.sort(key=lambda x: x[1][1])`
(main.py line 83): by timestamp ascending; `List.mergeSort` is stable,
like Python `sort`. -/
def tsLe (a b : String × AudioEntry) : Bool := decide (a.2.2 ≤ b.2.2)

/-- The eviction pass of `cache_audio` (main.py lines 80-85): sort the
entries by timestamp and delete the first `maxCacheSize // 5` keys. -/
def evict_oldest (c : AudioCache) : AudioCache :=
  ((c.mergeSort tsLe).take (maxCacheSize / 5)).foldl (fun d p => dictDel p.1 d) c

/-- The insertion `cache_audio` (main.py lines 76-87): run the eviction
pass when the population is at capacity, then insert unconditionally
with timestamp `now`. -/
def cache_audio (cache_key : String) (audio : List Int) (now : Int) (c : AudioCache) :
    AudioCache :=
  dictSet cache_key (audio, now) (if maxCacheSize ≤ c.length then evict_oldest c else c)

/-! ### Engine Handle Cache (main.py lines 35-36, 90-111) -/

/-- The pipeline dict: locale code to engine handle.  A `KPipeline`
handle is opaque; it is modelled by the locale it was built for. -/
abbrev PipelineCache := List (String × String)

/-- Construction of an engine handle, `KPipeline(lang_code=lang_code)`. -/
def KPipeline_mk (lang_code : String) : String := lang_code

/-- The insertion step of `get_pipeline` (main.py line 97). -/
def get_pipeline_insert (lang_code : String) (c : PipelineCache) : PipelineCache :=
  c ++ [(lang_code, KPipeline_mk lang_code)]

/-- The eviction step of `get_pipeline` (main.py lines 100-104):
`next(iter(dict))` is the first-inserted key; that entry is deleted. -/
def get_pipeline_evict (c : PipelineCache) : PipelineCache :=
  match c.head? with
  | some p => dictDel p.1 c
  | none => c

/-- The cache state after one `get_pipeline(lang_code)` call (main.py
lines 90-111): on a miss the new handle is inserted first, and only
then, if the population exceeds 5, the oldest-inserted entry is
evicted. -/
def get_pipeline_cache (lang_code : String) (c : PipelineCache) : PipelineCache :=
  if dictMem lang_code c then c
  else
    let c1 := get_pipeline_insert lang_code c
    if 5 < c1.length then get_pipeline_evict c1 else c1

/-- The successive cache states observable during one
`get_pipeline(lang_code)` call, in program order: before the call,
after the dict insertion of line 97, and after the eviction of
line 104 when it runs. -/
def get_pipeline_states (lang_code : String) (c : PipelineCache) : List PipelineCache :=
  if dictMem lang_code c then [c]
  else
    let c1 := get_pipeline_insert lang_code c
    if 5 < c1.length then [c, c1, get_pipeline_evict c1] else [c, c1]

/-! ### Per-unit synthesis (main.py lines 197-231) -/

/-- Outcome of the engine call `pipeline(text_chunk, ...)` inside
`generate_audio_sync`: the list of audio segments the generator
yields, or an exception. -/
inductive EngineOutcome where
  | ok (segments : List (List Int))
  | raise (msg : String)

/-- The fallback buffer `np.zeros(int(24000 * 0.1), dtype=np.float32)`
of main.py lines 227 and 231: 2400 zero samples, 100ms at 24000 Hz. -/
def silence_buffer : List Int := List.replicate 2400 0

/-- Result of one `generate_audio_sync` call: the returned samples and
the audio cache as the call leaves it. -/
structure GenResult where
  audio : List Int
  cache : AudioCache

/-- The per-unit synthesis function `generate_audio_sync` (main.py
lines 197-231): cache lookup first; on a miss, the engine outcome is
concatenated and cached when non-empty as a list, and any engine
exception or an empty segment list yields the silence buffer.  The
`except` clause makes the function total. -/
def generate_audio_sync (text_chunk voice speed lang : String) (now : Int)
    (c : AudioCache) (engine : EngineOutcome) : GenResult :=
  let cache_key := get_audio_cache_key text_chunk voice speed lang
  match get_cached_audio cache_key now c with
  | (some cached, c1) => ⟨cached, c1⟩
  | (none, c1) =>
    match engine with
    | .raise _ => ⟨silence_buffer, c1⟩
    | .ok segs =>
      if segs.isEmpty then ⟨silence_buffer, c1⟩
      else ⟨segs.flatten, cache_audio cache_key segs.flatten now c1⟩

/-! ### Batch scheduling, the `/tts` endpoint (main.py lines 310-381) -/

/-- Sequential linearization of the per-unit synthesis calls of one
batch request, threading the shared audio cache; `engine` gives the
engine outcome for each chunk text. -/
def process_units (voice speed lang : String) (now : Int) (engine : String → EngineOutcome) :
    List String → AudioCache → List (List Int) × AudioCache
  | [], c => ([], c)
  | u :: us, c =>
    let r := generate_audio_sync u voice speed lang now c (engine u)
    let rest := process_units voice speed lang now engine us r.cache
    (r.audio :: rest.1, rest.2)

/-- The audio assembly of the `tts` handler (main.py lines 326-355):
one chunk is synthesized directly from the full request text; several
chunks are synthesized per unit and concatenated in unit order after
dropping empty buffers; `np.concatenate` on an empty list raises, which
the handler turns into an error response. -/
def tts_batch (text : String) (units : List String) (voice speed lang : String)
    (now : Int) (c : AudioCache) (engine : String → EngineOutcome) :
    Except String (List Int) :=
  if units.length = 1 then
    Except.ok (generate_audio_sync text voice speed lang now c (engine text)).audio
  else
    let results := (process_units voice speed lang now engine units c).1
    let nonEmptyChunks := results.filter (fun a => 0 < a.length)
    if nonEmptyChunks.isEmpty then Except.error "need at least one array to concatenate"
    else Except.ok nonEmptyChunks.flatten

/-- A completion schedule for `asyncio.gather` (main.py line 352):
worker `i` computes `f i`, and `order` is the order in which the
workers happen to finish; each completion delivers `(index, result)`. -/
def runSchedule (f : Nat → List Int) (order : List Nat) : List (Nat × List Int) :=
  order.map (fun i => (i, f i))

/-- The reassembly `asyncio.gather` performs: slot `i` of the returned
list takes the result completed for index `i`, whatever the completion
order was; `none` only if some index never completed. -/
def gatherReassemble (n : Nat) (done : List (Nat × List Int)) : Option (List (List Int)) :=
  (List.range n).mapM (fun i => (done.find? (fun p => p.1 == i)).map (fun p => p.2))

/-! ### Streaming, the `/tts/stream` endpoint (main.py lines 389-515) -/

/-- The queue contents produced by `chunk_producer` (main.py lines
422-447): the producer iterates the chunks sequentially and enqueues
`(i, chunk_data)` in index order; a failed chunk enqueues empty bytes
(line 444).  `data i` is the WAV byte string of chunk `i`, as a
string of bytes. -/
def producerQueue (n : Nat) (data : Nat → String) : List (Nat × String) :=
  (List.range n).map (fun i => (i, data i))

/-- The consumer loop of `wav_stream` (main.py lines 453-476): it
drains the first `k` queue items (`k < n` models a timeout or
mid-stream break) and emits only items with non-empty data. -/
def streamEmitted (q : List (Nat × String)) (k : Nat) : List (Nat × String) :=
  (q.take k).filter (fun p => !p.2.isEmpty)

/-- One multipart frame of the stream. -/
inductive StreamFrame where
  | fragment (contentType : String) (data : String)
  | terminator
deriving DecidableEq

/-- The fragment builder `part(content_type, data)` (main.py lines
392-398). -/
def part (content_type : String) (data : String) : StreamFrame :=
  StreamFrame.fragment content_type data

/-- The multipart boundary (main.py line 389). -/
def BOUNDARY : String := "--frame"

/-- Byte-level rendering of a frame: the framing of `part` (main.py
lines 392-398) and the closing boundary of lines 497 and 507. -/
def renderFrame : StreamFrame → String
  | .fragment ct data =>
    BOUNDARY ++ "\r\n" ++ "Content-Type: " ++ ct ++ "\r\n" ++
      "Content-Length: " ++ toString data.length ++ "\r\n\r\n" ++ data ++ "\r\n"
  | .terminator => BOUNDARY ++ "--\r\n"

/-- Fragment content-type test used to state the error-frame property. -/
def isTextPlain : StreamFrame → Bool
  | .fragment ct _ => ct == "text/plain; charset=utf-8"
  | .terminator => false

/-- How one streaming response ends: full success, a consumer timeout
after `consumed` queue items, or a fatal error escaping to the outer
`except` after `consumed` items. -/
inductive StreamScenario where
  | success
  | timeout (consumed : Nat)
  | fatal (consumed : Nat) (msg : String)

/-- The audio fragments emitted for the first `k` queue items (main.py
line 466). -/
def audioFrames (q : List (Nat × String)) (k : Nat) : List StreamFrame :=
  (streamEmitted q k).map (fun p => part "audio/wav" p.2)

/-- The full frame sequence of one `wav_stream` response (main.py lines
401-507): audio fragments, then on a fatal error one text/plain
fragment with the error message (line 506), then always the
terminating boundary (lines 497 and 507). -/
def wav_stream_frames (q : List (Nat × String)) : StreamScenario → List StreamFrame
  | .success => audioFrames q q.length ++ [StreamFrame.terminator]
  | .timeout k => audioFrames q k ++ [StreamFrame.terminator]
  | .fatal k msg =>
    audioFrames q k ++
      [part "text/plain; charset=utf-8" ("Error: " ++ msg), StreamFrame.terminator]

/-! ## Lemmas on whitespace tokenization -/

theorem pyWordsAux_allWS (t : List Char) (h : ∀ c ∈ t, isWS c = true) (acc : List Char) :
    pyWordsAux acc t = if acc.isEmpty then [] else [acc.reverse] := by
  induction t generalizing acc with
  | nil => rfl
  | cons c cs ih =>
    have hc : isWS c = true := h c (List.mem_cons_self c cs)
    have ht : ∀ x ∈ cs, isWS x = true := fun x hx => h x (List.mem_cons_of_mem c hx)
    simp only [pyWordsAux, hc, if_true, ih ht]
    by_cases hacc : acc.isEmpty <;> simp [hacc]

theorem pyWordsAux_append_space (a b : List Char) (acc : List Char) :
    pyWordsAux acc (a ++ ' ' :: b) = pyWordsAux acc a ++ pyWords b := by
  induction a generalizing acc with
  | nil =>
    have hsp : isWS ' ' = true := rfl
    simp only [List.nil_append, pyWordsAux, hsp, if_true, pyWords]
    by_cases hacc : acc.isEmpty <;> simp [hacc]
  | cons c cs ih =>
    by_cases hc : isWS c = true
    · simp only [List.cons_append, pyWordsAux, hc, if_true]
      by_cases hacc : acc.isEmpty <;> simp [hacc, ih]
    · have hc2 : isWS c = false := by simpa using hc
      simp only [List.cons_append, pyWordsAux, hc2, Bool.false_eq_true, if_false]
      exact ih (c :: acc)

theorem pyWords_append_space (a b : List Char) :
    pyWords (a ++ ' ' :: b) = pyWords a ++ pyWords b :=
  pyWordsAux_append_space a b []

theorem flatten_pyWordsAux (l : List Char) (acc : List Char) :
    (pyWordsAux acc l).flatten = acc.reverse ++ nonWS l := by
  induction l generalizing acc with
  | nil =>
    by_cases hacc : acc.isEmpty
    · simp only [pyWordsAux, hacc, if_true]
      have : acc = [] := by simpa using hacc
      simp [this, nonWS]
    · simp [pyWordsAux, hacc, nonWS]
  | cons c cs ih =>
    by_cases hc : isWS c = true
    · have hn : nonWS (c :: cs) = nonWS cs := by simp [nonWS, List.filter_cons, hc]
      simp only [pyWordsAux, hc, if_true, hn]
      by_cases hacc : acc.isEmpty
      · have : acc = [] := by simpa using hacc
        simp [this, hacc, ih]
      · simp [hacc, ih]
    · have hc2 : isWS c = false := by simpa using hc
      have hn : nonWS (c :: cs) = c :: nonWS cs := by
        simp [nonWS, List.filter_cons, hc2]
      simp only [pyWordsAux, hc2, Bool.false_eq_true, if_false, hn, ih]
      simp

theorem flatten_pyWords (l : List Char) : (pyWords l).flatten = nonWS l :=
  flatten_pyWordsAux l []

theorem mem_pyWordsAux (l : List Char) (acc w : List Char)
    (hacc : ∀ c ∈ acc, isWS c = false) (hw : w ∈ pyWordsAux acc l) :
    w ≠ [] ∧ ∀ c ∈ w, isWS c = false := by
  induction l generalizing acc with
  | nil =>
    by_cases ha : acc.isEmpty
    · simp [pyWordsAux, ha] at hw
    · simp only [pyWordsAux, ha, if_false, Bool.false_eq_true, List.mem_singleton] at hw
      subst hw
      refine ⟨by simpa using ha, fun c hc => hacc c (by simpa using hc)⟩
  | cons x xs ih =>
    by_cases hx : isWS x = true
    · simp only [pyWordsAux, hx, if_true] at hw
      by_cases ha : acc.isEmpty
      · rw [if_pos ha] at hw
        exact ih [] (by simp) hw
      · rw [if_neg ha] at hw
        rcases List.mem_cons.mp hw with h1 | h2
        · subst h1
          refine ⟨by simpa using ha, fun c hc => hacc c (by simpa using hc)⟩
        · exact ih [] (by simp) h2
    · have hx2 : isWS x = false := by simpa using hx
      simp only [pyWordsAux, hx2, Bool.false_eq_true, if_false] at hw
      refine ih (x :: acc) ?_ hw
      intro c hc
      rcases List.mem_cons.mp hc with h1 | h2
      · subst h1; exact hx2
      · exact hacc c h2

theorem mem_pyWords (l w : List Char) (hw : w ∈ pyWords l) :
    w ≠ [] ∧ ∀ c ∈ w, isWS c = false :=
  mem_pyWordsAux l [] w (by simp) hw

theorem pyWordsAux_noWS (l : List Char) (hl : ∀ c ∈ l, isWS c = false) (acc : List Char) :
    pyWordsAux acc l = if (acc.reverse ++ l).isEmpty then [] else [acc.reverse ++ l] := by
  induction l generalizing acc with
  | nil => simp [pyWordsAux]
  | cons c cs ih =>
    have hc : isWS c = false := hl c (List.mem_cons_self c cs)
    have hcs : ∀ x ∈ cs, isWS x = false := fun x hx => hl x (List.mem_cons_of_mem c hx)
    simp only [pyWordsAux, hc, Bool.false_eq_true, if_false, ih hcs]
    simp

theorem pyWords_wordOnly (w : List Char) (hne : w ≠ [])
    (hw : ∀ c ∈ w, isWS c = false) : pyWords w = [w] := by
  unfold pyWords
  rw [pyWordsAux_noWS w hw []]
  simp [hne]

theorem pyWords_joinSp (ws : List (List Char))
    (h : ∀ w ∈ ws, w ≠ [] ∧ ∀ c ∈ w, isWS c = false) : pyWords (joinSp ws) = ws := by
  induction ws with
  | nil => rfl
  | cons w rest ih =>
    match rest with
    | [] =>
      show pyWords w = [w]
      exact pyWords_wordOnly w (h w (by simp)).1 (h w (by simp)).2
    | x :: t =>
      show pyWords (w ++ ' ' :: joinSp (x :: t)) = w :: x :: t
      rw [pyWords_append_space, pyWords_wordOnly w (h w (by simp)).1 (h w (by simp)).2,
        ih (fun v hv => h v (List.mem_cons_of_mem w hv))]
      rfl

theorem pyWords_dropWhile_ws (l : List Char) : pyWords (l.dropWhile isWS) = pyWords l := by
  induction l with
  | nil => rfl
  | cons c cs ih =>
    rw [List.dropWhile_cons]
    by_cases hc : isWS c = true
    · rw [if_pos hc, ih]
      show pyWordsAux [] cs = pyWordsAux [] (c :: cs)
      simp [pyWordsAux, hc]
    · rw [if_neg hc]

theorem pyWordsAux_append_allWS (l t : List Char) (h : ∀ c ∈ t, isWS c = true)
    (acc : List Char) : pyWordsAux acc (l ++ t) = pyWordsAux acc l := by
  induction l generalizing acc with
  | nil =>
    rw [List.nil_append, pyWordsAux_allWS t h acc]
    rfl
  | cons c cs ih =>
    by_cases hc : isWS c = true
    · simp only [List.cons_append, pyWordsAux, hc, if_true]
      by_cases hacc : acc.isEmpty <;> simp [hacc, ih]
    · have hc2 : isWS c = false := by simpa using hc
      simp only [List.cons_append, pyWordsAux, hc2, Bool.false_eq_true, if_false]
      exact ih (c :: acc)

theorem strip_decomp (l : List Char) :
    l.dropWhile isWS = pyStrip l ++ ((l.dropWhile isWS).reverse.takeWhile isWS).reverse := by
  unfold pyStrip
  rw [← List.reverse_append, List.takeWhile_append_dropWhile, List.reverse_reverse]

theorem pyWords_strip (l : List Char) : pyWords (pyStrip l) = pyWords l := by
  have h1 : pyWords l = pyWords (l.dropWhile isWS) := (pyWords_dropWhile_ws l).symm
  rw [h1, strip_decomp l]
  unfold pyWords
  rw [pyWordsAux_append_allWS]
  intro c hc
  rw [List.mem_reverse] at hc
  exact List.mem_takeWhile_imp hc

/-! ## Lemmas on non-whitespace content -/

theorem nonWS_append (a b : List Char) : nonWS (a ++ b) = nonWS a ++ nonWS b := by
  simp [nonWS]

theorem nonWS_allWS (t : List Char) (h : ∀ c ∈ t, isWS c = true) : nonWS t = [] := by
  simp only [nonWS, List.filter_eq_nil_iff]
  intro c hc
  simp [h c hc]

theorem nonWS_cons_ws (c : Char) (l : List Char) (h : isWS c = true) :
    nonWS (c :: l) = nonWS l := by
  simp [nonWS, List.filter_cons, h]

theorem nonWS_strip (l : List Char) : nonWS (pyStrip l) = nonWS l := by
  have ht : ∀ c ∈ ((l.dropWhile isWS).reverse.takeWhile isWS).reverse, isWS c = true := by
    intro c hc
    rw [List.mem_reverse] at hc
    exact List.mem_takeWhile_imp hc
  have h1 : nonWS l = nonWS (l.dropWhile isWS) := by
    conv_lhs => rw [← List.takeWhile_append_dropWhile (p := isWS) (l := l)]
    rw [nonWS_append, nonWS_allWS _ (fun c hc => List.mem_takeWhile_imp hc), List.nil_append]
  rw [h1]
  conv_rhs => rw [strip_decomp l]
  rw [nonWS_append, nonWS_allWS _ ht, List.append_nil]

theorem nonWS_of_strip_nil (l : List Char) (h : pyStrip l = []) : nonWS l = [] := by
  rw [← nonWS_strip l, h]
  rfl

theorem nonWS_joinSp (ws : List (List Char)) :
    nonWS (joinSp ws) = (ws.map nonWS).flatten := by
  induction ws with
  | nil => rfl
  | cons w rest ih =>
    match rest with
    | [] => simp [joinSp, nonWS]
    | x :: t =>
      show nonWS (w ++ ' ' :: joinSp (x :: t)) = _
      rw [nonWS_append, nonWS_cons_ws ' ' _ rfl, ih]
      simp

/-! ## Lemmas on chunk slicing -/

theorem chunkEveryFuel_flatten (m : Nat) (hm : m ≠ 0) (fuel : Nat) :
    ∀ l : List α, l.length ≤ fuel → (chunkEveryFuel m fuel l).flatten = l := by
  induction fuel with
  | zero =>
    intro l hl
    have hnil : l = [] := List.length_eq_zero.mp (Nat.le_zero.mp hl)
    subst hnil
    rfl
  | succ fuel ih =>
    intro l hl
    match l with
    | [] => rfl
    | x :: xs =>
      simp only [chunkEveryFuel, if_neg hm, List.flatten_cons]
      rw [ih ((x :: xs).drop m) ?_, List.take_append_drop]
      simp only [List.length_drop, List.length_cons]
      simp only [List.length_cons] at hl
      omega

theorem chunkEvery_flatten (m : Nat) (hm : m ≠ 0) (l : List α) :
    (chunkEvery m l).flatten = l :=
  chunkEveryFuel_flatten m hm l.length l (Nat.le_refl _)

theorem length_le_of_mem_chunkEveryFuel (m : Nat) (fuel : Nat) :
    ∀ (l : List α), ∀ g ∈ chunkEveryFuel m fuel l, g.length ≤ m := by
  induction fuel with
  | zero =>
    intro l g hg
    match l with
    | [] => simp [chunkEveryFuel] at hg
    | x :: xs => simp [chunkEveryFuel] at hg
  | succ fuel ih =>
    intro l g hg
    match l with
    | [] => simp [chunkEveryFuel] at hg
    | x :: xs =>
      by_cases hm : m = 0
      · simp [chunkEveryFuel, hm] at hg
      · simp only [chunkEveryFuel, if_neg hm] at hg
        rcases List.mem_cons.mp hg with h1 | h2
        · subst h1
          exact List.length_take_le m (x :: xs)
        · exact ih ((x :: xs).drop m) g h2

theorem length_le_of_mem_chunkEvery (m : Nat) (l : List α) :
    ∀ g ∈ chunkEvery m l, g.length ≤ m :=
  length_le_of_mem_chunkEveryFuel m l.length l

theorem mem_of_mem_chunkEveryFuel (m : Nat) (fuel : Nat) :
    ∀ (l : List α), ∀ g ∈ chunkEveryFuel m fuel l, ∀ a ∈ g, a ∈ l := by
  induction fuel with
  | zero =>
    intro l g hg
    match l with
    | [] => simp [chunkEveryFuel] at hg
    | x :: xs => simp [chunkEveryFuel] at hg
  | succ fuel ih =>
    intro l g hg a ha
    match l with
    | [] => simp [chunkEveryFuel] at hg
    | x :: xs =>
      by_cases hm : m = 0
      · simp [chunkEveryFuel, hm] at hg
      · simp only [chunkEveryFuel, if_neg hm] at hg
        rcases List.mem_cons.mp hg with h1 | h2
        · subst h1
          exact List.take_subset m (x :: xs) ha
        · exact List.drop_subset m (x :: xs) (ih ((x :: xs).drop m) g h2 a ha)

theorem mem_of_mem_chunkEvery (m : Nat) (l : List α) :
    ∀ g ∈ chunkEvery m l, ∀ a ∈ g, a ∈ l :=
  mem_of_mem_chunkEveryFuel m l.length l

/-! ## The word-count bound of the segmenter -/

theorem pyWords_cons_ws (c : Char) (l : List Char) (h : isWS c = true) :
    pyWords (c :: l) = pyWords l := by
  show pyWordsAux [] (c :: l) = pyWordsAux [] l
  simp [pyWordsAux, h]

theorem wordCount_strip (l : List Char) : wordCount (pyStrip l) = wordCount l := by
  simp [wordCount, pyWords_strip]

theorem wordCount_merge (a b : List Char) :
    wordCount (a ++ ' ' :: b) = wordCount a + wordCount b := by
  simp [wordCount, pyWords_append_space]

theorem greedyPack_bounded (m : Nat) (st : SplitState) (p : List Char)
    (hst : wordsBounded m st) (hp : wordCount p ≤ m) :
    wordsBounded m (greedyPack m st p) := by
  unfold greedyPack
  by_cases hcond : st.cur ≠ [] ∧ m < (pyWords st.cur).length + (pyWords p).length
  · rw [if_pos hcond]
    refine ⟨fun c hc => ?_, hp⟩
    rcases List.mem_append.mp hc with h1 | h2
    · exact hst.1 c h1
    · rw [List.mem_singleton] at h2
      subst h2
      rw [wordCount_strip]
      exact hst.2
  · rw [if_neg hcond]
    refine ⟨hst.1, ?_⟩
    rw [wordCount_strip, wordCount_merge]
    rcases Decidable.not_and_iff_or_not.mp hcond with h1 | h2
    · have hcur : st.cur = [] := Decidable.of_not_not h1
      rw [hcur]
      simpa [wordCount, pyWords, pyWordsAux] using hp
    · have := Nat.le_of_not_lt h2
      simpa [wordCount] using this

theorem processPart_bounded (m : Nat) (st : SplitState) (p : List Char)
    (hst : wordsBounded m st) : wordsBounded m (processPart m st p) := by
  unfold processPart
  by_cases h : m < (pyWords p).length
  · rw [if_pos h]
    refine ⟨fun c hc => ?_, hst.2⟩
    rcases List.mem_append.mp hc with h1 | h2
    · exact hst.1 c h1
    · rcases List.mem_map.mp h2 with ⟨g, hg, rfl⟩
      have hglen := length_le_of_mem_chunkEvery m (pyWords p) g hg
      have hgw : ∀ x ∈ g, x ≠ [] ∧ ∀ ch ∈ x, isWS ch = false := fun x hx =>
        mem_pyWords p x (mem_of_mem_chunkEvery m (pyWords p) g hg x hx)
      show wordCount (joinSp g) ≤ m
      rw [wordCount, pyWords_joinSp g hgw]
      exact hglen
  · rw [if_neg h]
    exact greedyPack_bounded m st p hst (Nat.le_of_not_lt h)

theorem processSentence_bounded (m : Nat) (st : SplitState) (s : List Char)
    (hst : wordsBounded m st) : wordsBounded m (processSentence m st s) := by
  unfold processSentence
  by_cases h0 : pyStrip s = []
  · rw [if_pos h0]
    exact hst
  · rw [if_neg h0]
    by_cases h1 : m < (pyWords s).length
    · rw [if_pos h1]
      have : ∀ (ps : List (List Char)) (st0 : SplitState), wordsBounded m st0 →
          wordsBounded m (ps.foldl (processPart m) st0) := by
        intro ps
        induction ps with
        | nil => exact fun st0 h => h
        | cons q qs ih => exact fun st0 h => ih _ (processPart_bounded m st0 q h)
      exact this (splitCommaParts s) st hst
    · rw [if_neg h1]
      exact greedyPack_bounded m st s hst (Nat.le_of_not_lt h1)

theorem foldl_processSentence_bounded (m : Nat) (ss : List (List Char)) (st : SplitState)
    (hst : wordsBounded m st) : wordsBounded m (ss.foldl (processSentence m) st) := by
  induction ss generalizing st with
  | nil => exact hst
  | cons s ss ih => exact ih _ (processSentence_bounded m st s hst)

/-! ## Content preservation of the segmenter -/

theorem greedyPack_content (m : Nat) (st : SplitState) (p : List Char) :
    stateContent (greedyPack m st p) = stateContent st ++ nonWS p := by
  unfold greedyPack stateContent
  by_cases hcond : st.cur ≠ [] ∧ m < (pyWords st.cur).length + (pyWords p).length
  · rw [if_pos hcond]
    simp only [List.map_append, List.flatten_append, List.map_cons, List.map_nil,
      List.flatten_cons, List.flatten_nil, nonWS_strip, List.append_nil]
  · rw [if_neg hcond]
    simp only [nonWS_strip, nonWS_append, nonWS_cons_ws ' ' p rfl, List.append_assoc]

theorem processSentence_content (m : Nat) (st : SplitState) (s : List Char)
    (hs : (pyWords s).length ≤ m) :
    stateContent (processSentence m st s) = stateContent st ++ nonWS s := by
  unfold processSentence
  by_cases h0 : pyStrip s = []
  · rw [if_pos h0, nonWS_of_strip_nil s h0, List.append_nil]
  · rw [if_neg h0, if_neg (Nat.not_lt.mpr hs)]
    exact greedyPack_content m st s

theorem foldl_processSentence_content (m : Nat) (ss : List (List Char))
    (h : ∀ s ∈ ss, (pyWords s).length ≤ m) (st : SplitState) :
    stateContent (ss.foldl (processSentence m) st) =
      stateContent st ++ (ss.map nonWS).flatten := by
  induction ss generalizing st with
  | nil => simp
  | cons s ss ih =>
    rw [List.foldl_cons, ih (fun x hx => h x (List.mem_cons_of_mem s hx)) _,
      processSentence_content m st s (h s (List.mem_cons_self s ss))]
    simp [List.append_assoc]

theorem flatten_map_nonWS_filter (l : List (List Char)) :
    ((l.filter (fun c => pyStrip c ≠ [])).map nonWS).flatten = (l.map nonWS).flatten := by
  induction l with
  | nil => rfl
  | cons x xs ih =>
    by_cases hx : pyStrip x = []
    · rw [List.filter_cons, if_neg (by simp [hx]), ih, List.map_cons, List.flatten_cons,
        nonWS_of_strip_nil x hx, List.nil_append]
    · rw [List.filter_cons, if_pos (by simp [hx]), List.map_cons, List.flatten_cons, ih,
        List.map_cons, List.flatten_cons]

/-! ## Lemmas on the dict model -/

theorem dictGet_dictSet_self {V : Type} (k : String) (v : V) (d : List (String × V)) :
    dictGet k (dictSet k v d) = some v := by
  induction d with
  | nil => simp [dictSet, dictMem, dictGet]
  | cons p ps ih =>
    by_cases hp : p.1 == k
    · have hm : dictMem k (p :: ps) = true := by simp [dictMem, List.any_cons, hp]
      rw [dictSet, if_pos hm, List.map_cons, if_pos hp]
      simp [dictGet]
    · by_cases hms : dictMem k ps = true
      · have hm : dictMem k (p :: ps) = true := by
          simp only [dictMem, List.any_cons]
          simp only [dictMem] at hms
          rw [hms]
          simp
        rw [dictSet, if_pos hm, List.map_cons, if_neg hp]
        rw [dictSet, if_pos hms] at ih
        rw [dictGet, List.find?_cons_of_neg _ (by simpa using hp)]
        exact ih
      · have hm : dictMem k (p :: ps) = false := by
          simp only [dictMem, List.any_cons]
          simp only [dictMem] at hms
          simp [hp, hms]
        rw [dictSet, if_neg (by simp [hm]), List.cons_append]
        rw [dictSet, if_neg (by simp [hms])] at ih
        rw [dictGet, List.find?_cons_of_neg _ (by simpa using hp)]
        exact ih

theorem dictMem_dictDel_self {V : Type} (k : String) (d : List (String × V)) :
    dictMem k (dictDel k d) = false := by
  induction d with
  | nil => rfl
  | cons p ps ih =>
    show dictMem k (List.filter _ (p :: ps)) = false
    rw [List.filter_cons]
    by_cases hp : (p.1 == k) = true
    · rw [if_neg (by simp [hp])]
      exact ih
    · rw [if_pos (by simp [hp])]
      show ((p.1 == k) || dictMem k (dictDel k ps)) = false
      rw [ih, Bool.or_false]
      simpa using hp

theorem dictGet_mem {V : Type} (k : String) (d : List (String × V)) (v : V)
    (h : dictGet k d = some v) : ∃ p ∈ d, p.2 = v ∧ p.1 = k := by
  unfold dictGet at h
  match hf : d.find? (fun p => p.1 == k) with
  | none =>
    rw [hf] at h
    exact absurd h (by simp)
  | some q =>
    rw [hf] at h
    have hq2 : q.2 = v := by simpa [Option.map] using h
    have hq1 := List.find?_some hf
    exact ⟨q, List.mem_of_find?_eq_some hf, hq2, by simpa using hq1⟩

theorem length_dictSet_le {V : Type} (k : String) (v : V) (d : List (String × V)) :
    (dictSet k v d).length ≤ d.length + 1 := by
  unfold dictSet
  by_cases hm : dictMem k d
  · rw [if_pos hm, List.length_map]
    omega
  · rw [if_neg hm, List.length_append]
    simp

/-! ## Claim C7 -/

/-- C7: a `get` right after a `put` of the same key, at age below the
TTL, hits and returns the stored audio, and the hit refreshes the
entry's timestamp to the lookup time; a `get` on an entry whose age
reached the TTL deletes the entry and misses. -/
theorem cache_get_after_put (key : String) (v : List Int) (t1 t2 : Int) (c : AudioCache)
    (hage : t2 - t1 < cacheTTL) :
    ((get_cached_audio key t2 (cache_audio key v t1 c)).1 = some v ∧
      dictGet key ((get_cached_audio key t2 (cache_audio key v t1 c)).2) = some (v, t2)) ∧
    ∀ (c2 : AudioCache) (a : List Int) (ts now : Int),
      dictGet key c2 = some (a, ts) → cacheTTL ≤ now - ts →
      (get_cached_audio key now c2).1 = none ∧
      dictMem key ((get_cached_audio key now c2).2) = false := by
  constructor
  · have hget : dictGet key (cache_audio key v t1 c) = some (v, t1) :=
      dictGet_dictSet_self key (v, t1) _
    have hsplit : get_cached_audio key t2 (cache_audio key v t1 c) =
        (some v, dictSet key (v, t2) (cache_audio key v t1 c)) := by
      rw [get_cached_audio, hget]
      dsimp only
      rw [if_pos hage]
    rw [hsplit]
    exact ⟨rfl, dictGet_dictSet_self key (v, t2) _⟩
  · intro c2 a ts now hfound hexp
    have hcond : ¬(now - ts < cacheTTL) := Int.not_lt.mpr hexp
    have hsplit : get_cached_audio key now c2 = (none, dictDel key c2) := by
      rw [get_cached_audio, hfound]
      dsimp only
      rw [if_neg hcond]
    rw [hsplit]
    exact ⟨rfl, dictMem_dictDel_self key c2⟩

/-- Witness for `cache_get_after_put`: a concrete put/get pair within
the TTL and a concrete expired entry. -/
theorem cache_get_after_put_witness :
    ((10 : Int) - 4 < cacheTTL ∧
      (get_cached_audio "k" 10 (cache_audio "k" [7] 4 [])).1 = some [7]) ∧
    (dictGet "k" [("k", ([7], 0))] = some (([7] : List Int), (0 : Int)) ∧
      cacheTTL ≤ (5000 : Int) - 0 ∧
      (get_cached_audio "k" 5000 [("k", ([7], 0))]).1 = none) :=
  ⟨⟨by decide, ((cache_get_after_put "k" [7] 4 10 [] (by decide)).1).1⟩,
    ⟨by decide, by decide,
      ((cache_get_after_put "k" [7] 4 10 [] (by decide)).2 [("k", ([7], 0))] [7] 0 5000
        (by decide) (by decide)).1⟩⟩

/-! ## Claim C6 -/

theorem foldl_dictDel_eq_filter {V : Type} (ks : List (String × V)) (c : List (String × V)) :
    ks.foldl (fun d p => dictDel p.1 d) c =
      c.filter (fun q => !(ks.any (fun p => p.1 == q.1))) := by
  induction ks generalizing c with
  | nil => simp
  | cons p ps ih =>
    rw [List.foldl_cons, ih (dictDel p.1 c)]
    unfold dictDel
    rw [List.filter_filter]
    apply List.filter_congr
    intro q _
    by_cases hq : p.1 = q.1
    · simp [hq]
    · have h1 : (q.1 == p.1) = false := by
        rw [beq_eq_false_iff_ne]
        exact fun h => hq h.symm
      have h2 : (p.1 == q.1) = false := by simpa using hq
      simp [h1, h2]

theorem tsLe_trans (a b c : String × AudioEntry) (h1 : tsLe a b) (h2 : tsLe b c) :
    tsLe a c := by
  simp only [tsLe, decide_eq_true_eq] at h1 h2 ⊢
  omega

theorem tsLe_total (a b : String × AudioEntry) : tsLe a b || tsLe b a := by
  simp only [tsLe]
  rcases Int.le_total a.2.2 b.2.2 with h | h <;> simp [h]

theorem evict_oldest_spec (c : AudioCache) (hnodup : (c.map Prod.fst).Nodup)
    (hlen : maxCacheSize ≤ c.length) :
    (evict_oldest c).length + maxCacheSize / 5 = c.length ∧
    ∀ p ∈ evict_oldest c, ∀ q ∈ (c.mergeSort tsLe).take (maxCacheSize / 5),
      q.2.2 ≤ p.2.2 := by
  have hperm : List.Perm (c.mergeSort tsLe) c := List.mergeSort_perm c tsLe
  have hsorted : (c.mergeSort tsLe).Pairwise (fun a b => tsLe a b) :=
    List.sorted_mergeSort (fun a b d => tsLe_trans a b d) tsLe_total c
  set n := maxCacheSize / 5 with hn
  set sorted := c.mergeSort tsLe with hsorteddef
  have hdecomp : sorted = sorted.take n ++ sorted.drop n := (List.take_append_drop n sorted).symm
  have hkeys : (sorted.map Prod.fst).Nodup :=
    List.Nodup.perm hnodup (List.Perm.symm (List.Perm.map Prod.fst hperm))
  have hdisj : ∀ k, k ∈ (sorted.take n).map Prod.fst → k ∈ (sorted.drop n).map Prod.fst → False := by
    intro k h1 h2
    rw [hdecomp, List.map_append] at hkeys
    exact (List.nodup_append.mp hkeys).2.2 h1 h2
  have hfilter : evict_oldest c =
      c.filter (fun q => !((sorted.take n).any (fun p => p.1 == q.1))) := by
    unfold evict_oldest
    rw [foldl_dictDel_eq_filter]
  have hdropped : ∀ q ∈ sorted.take n,
      (fun q => !((sorted.take n).any (fun p => p.1 == q.1))) q = false := by
    intro q hq
    have : (sorted.take n).any (fun p => p.1 == q.1) = true :=
      List.any_eq_true.mpr ⟨q, hq, by simp⟩
    simp [this]
  have hkept : ∀ q ∈ sorted.drop n,
      (fun q => !((sorted.take n).any (fun p => p.1 == q.1))) q = true := by
    intro q hq
    rw [Bool.not_eq_true', List.any_eq_false]
    intro p hp hpq
    have hpq2 : p.1 = q.1 := by simpa using hpq
    exact hdisj q.1 (List.mem_map.mpr ⟨p, hp, hpq2⟩) (List.mem_map.mpr ⟨q, hq, rfl⟩)
  have hpermfilter : List.Perm (evict_oldest c) (sorted.drop n) := by
    rw [hfilter]
    have h1 : List.Perm (c.filter (fun q => !((sorted.take n).any (fun p => p.1 == q.1))))
        (sorted.filter (fun q => !((sorted.take n).any (fun p => p.1 == q.1)))) :=
      (hperm.filter _).symm
    have h2 : (sorted.take n ++ sorted.drop n).filter
        (fun q => !((sorted.take n).any (fun p => p.1 == q.1))) = sorted.drop n := by
      rw [List.filter_append, List.filter_eq_nil_iff.mpr (fun a ha => by simp [hdropped a ha]),
        List.nil_append, List.filter_eq_self.mpr hkept]
    rw [← hdecomp] at h2
    rw [h2] at h1
    exact h1
  constructor
  · have hlen1 : (evict_oldest c).length = (sorted.drop n).length := hpermfilter.length_eq
    have hlen2 : sorted.length = c.length := hperm.length_eq
    rw [hlen1, List.length_drop, hlen2]
    have : n ≤ c.length := le_trans (by rw [hn]; decide) hlen
    omega
  · intro p hp q hq
    have hpmem : p ∈ sorted.drop n := hpermfilter.mem_iff.mp hp
    have hpair := (List.pairwise_append.mp (hdecomp ▸ hsorted)).2.2
    have := hpair q hq p hpmem
    simpa [tsLe] using this

/-- C6: after a `cache_audio` put on a cache within capacity, the
population stays within capacity (default 100); the eviction pass, run
when the population has reached capacity, removes from the cache
exactly `capacity // 5 = 20` entries, namely the first 20 of the
entries sorted by timestamp ascending, so every surviving entry has a
timestamp at least that of every evicted one. -/
theorem cache_audio_capacity (key : String) (audio : List Int) (now : Int) (c : AudioCache)
    (hnodup : (c.map Prod.fst).Nodup) (hlen : c.length ≤ maxCacheSize) :
    (cache_audio key audio now c).length ≤ maxCacheSize ∧
    (evict_oldest c).Sublist c ∧
    (maxCacheSize ≤ c.length →
      (evict_oldest c).length + maxCacheSize / 5 = c.length ∧
      ∀ p ∈ evict_oldest c, ∀ q ∈ (c.mergeSort tsLe).take (maxCacheSize / 5),
        q.2.2 ≤ p.2.2) := by
  refine ⟨?_, ?_, fun hfull => evict_oldest_spec c hnodup hfull⟩
  · unfold cache_audio
    by_cases hfull : maxCacheSize ≤ c.length
    · rw [if_pos hfull]
      have hspec := evict_oldest_spec c hnodup hfull
      have h1 := length_dictSet_le key (audio, now) (evict_oldest c)
      have h2 : c.length = maxCacheSize := le_antisymm hlen hfull
      have h3 : (maxCacheSize : Nat) / 5 = 20 := by decide
      omega
    · rw [if_neg hfull]
      have h1 := length_dictSet_le key (audio, now) c
      omega
  · have hfilter : evict_oldest c =
        c.filter (fun q => !(((c.mergeSort tsLe).take (maxCacheSize / 5)).any
          (fun p => p.1 == q.1))) := by
      unfold evict_oldest
      rw [foldl_dictDel_eq_filter]
    rw [hfilter]
    exact List.filter_sublist c

/-- Witness for `cache_audio_capacity`: a concrete two-entry cache with
distinct keys, within capacity. -/
theorem cache_audio_capacity_witness :
    ((([("a", ([1], 5)), ("b", ([2], 3))] : AudioCache).map Prod.fst).Nodup ∧
      ([("a", ([1], 5)), ("b", ([2], 3))] : AudioCache).length ≤ maxCacheSize) ∧
    (cache_audio "k" [9] 7 [("a", ([1], 5)), ("b", ([2], 3))]).length ≤ maxCacheSize :=
  ⟨⟨by decide, by decide⟩,
    (cache_audio_capacity "k" [9] 7 [("a", ([1], 5)), ("b", ([2], 3))] (by decide)
      (by decide)).1⟩

/-! ## Claim C5 -/

/-- A pipeline cache reached from empty by five acquires of distinct
locales, filling the cache to its maximum population. -/
def pipelineFull : PipelineCache :=
  get_pipeline_cache "h" (get_pipeline_cache "f" (get_pipeline_cache "e"
    (get_pipeline_cache "b" (get_pipeline_cache "a" []))))

/-- C5 fails on the code: `get_pipeline` inserts the new handle first
(line 97) and evicts only afterwards (lines 100-104), so on the sixth
distinct locale the cache transiently holds 6 entries inside the
locked section; the claimed evict-before-insert ordering, under which
the population would never exceed 5, does not hold. -/
theorem get_pipeline_transient_overflow :
    pipelineFull.length = 5 ∧
    ∃ st ∈ get_pipeline_states "i" pipelineFull, 5 < st.length :=
  ⟨by decide, by decide⟩

theorem dictDel_head_of_nodup {V : Type} (p : String × V) (ps : List (String × V))
    (hnodup : ((p :: ps).map Prod.fst).Nodup) : dictDel p.1 (p :: ps) = ps := by
  unfold dictDel
  rw [List.filter_cons, if_neg (by simp)]
  apply List.filter_eq_self.mpr
  intro q hq
  have hne : q.1 ≠ p.1 := by
    intro he
    rw [List.map_cons] at hnodup
    exact (List.nodup_cons.mp hnodup).1 (List.mem_map.mpr ⟨q, hq, he⟩)
  simpa using hne

/-- C5 amended: the bound holds at the end of every `get_pipeline`
call, not at every instant: starting from a cache within the bound, a
call leaves at most 5 handles, and when the insertion pushes the
population to 6 (a miss on a full cache) the oldest-inserted entry is
evicted after the insertion, within the same locked section, leaving
the remaining entries plus the new handle. -/
theorem get_pipeline_bound_after_call (lang_code : String) (c : PipelineCache)
    (hlen : c.length ≤ 5) (hnodup : (c.map Prod.fst).Nodup) :
    (get_pipeline_cache lang_code c).length ≤ 5 ∧
    (dictMem lang_code c = false → c.length = 5 →
      get_pipeline_cache lang_code c = c.tail ++ [(lang_code, KPipeline_mk lang_code)]) := by
  have heviction : dictMem lang_code c = false → c.length = 5 →
      get_pipeline_cache lang_code c = c.tail ++ [(lang_code, KPipeline_mk lang_code)] := by
    intro hmiss hfive
    match c, hmiss, hfive, hnodup with
    | p :: ps, hmiss, hfive, hnodup =>
      rw [get_pipeline_cache, if_neg (by simp [hmiss])]
      have hlen6 : (get_pipeline_insert lang_code (p :: ps)).length = 6 := by
        unfold get_pipeline_insert
        rw [List.length_append]
        simp only [List.length_cons] at hfive ⊢
        simpa using hfive
      rw [if_pos (by rw [hlen6]; decide)]
      have hmiss2 : ∀ q ∈ p :: ps, (q.1 == lang_code) = false := by
        intro q hq
        have h0 : ((p :: ps).any (fun r => r.1 == lang_code)) = false := hmiss
        have h1 := List.any_eq_false.mp h0 q hq
        simpa using h1
      have hp1 : p.1 ≠ lang_code := by
        have := hmiss2 p (List.mem_cons_self p ps)
        simpa using this
      have hps : lang_code ∉ ps.map Prod.fst := by
        intro hk
        rcases List.mem_map.mp hk with ⟨q, hq, hq1⟩
        have := hmiss2 q (List.mem_cons_of_mem p hq)
        rw [hq1] at this
        simp at this
      have hh : p.1 ∉ ps.map Prod.fst ∧ (ps.map Prod.fst).Nodup := by
        rw [List.map_cons, List.nodup_cons] at hnodup
        exact hnodup
      have hnodup2 : ((p :: (ps ++ [(lang_code, KPipeline_mk lang_code)])).map
          Prod.fst).Nodup := by
        simp only [List.map_cons, List.map_append, List.map_nil]
        rw [List.nodup_cons]
        constructor
        · intro hmem
          rcases List.mem_append.mp hmem with h1 | h2
          · exact hh.1 h1
          · rw [List.mem_singleton] at h2
            exact hp1 h2
        · rw [List.nodup_append]
          refine ⟨hh.2, List.nodup_singleton _, ?_⟩
          intro k hk1 hk2
          rw [List.mem_singleton] at hk2
          subst hk2
          exact hps hk1
      unfold get_pipeline_evict get_pipeline_insert
      rw [List.cons_append, List.head?_cons]
      show dictDel p.1 (p :: (ps ++ [(lang_code, KPipeline_mk lang_code)])) = _
      rw [dictDel_head_of_nodup p _ hnodup2]
      rfl
  refine ⟨?_, heviction⟩
  by_cases hmem : dictMem lang_code c = true
  · rw [get_pipeline_cache, if_pos hmem]
    exact hlen
  · have hmiss : dictMem lang_code c = false := by simpa using hmem
    by_cases hfive : c.length = 5
    · rw [heviction hmiss hfive]
      rw [List.length_append]
      have htail : c.tail.length = 4 := by
        rw [List.length_tail, hfive]
      rw [htail]
      simp
    · rw [get_pipeline_cache, if_neg (by simp [hmiss])]
      have h4 : c.length ≤ 4 := by omega
      have hlen5 : (get_pipeline_insert lang_code c).length ≤ 5 := by
        unfold get_pipeline_insert
        rw [List.length_append]
        simpa using h4
      rw [if_neg (by omega)]
      exact hlen5

/-- Witness for `get_pipeline_bound_after_call`: the full five-locale
cache and a sixth locale, exercising the eviction equation. -/
theorem get_pipeline_bound_after_call_witness :
    (pipelineFull.length ≤ 5 ∧ (pipelineFull.map Prod.fst).Nodup) ∧
    (get_pipeline_cache "i" pipelineFull).length ≤ 5 ∧
    get_pipeline_cache "i" pipelineFull =
      pipelineFull.tail ++ [("i", KPipeline_mk "i")] :=
  ⟨⟨by decide, by decide⟩,
    (get_pipeline_bound_after_call "i" pipelineFull (by decide) (by decide)).1,
    (get_pipeline_bound_after_call "i" pipelineFull (by decide) (by decide)).2
      (by decide) (by decide)⟩

/-! ## Claim C4 -/

theorem generate_on_empty_cache_raise (text voice speed lang : String) (now : Int)
    (msg : String) :
    generate_audio_sync text voice speed lang now [] (.raise msg) =
      ⟨silence_buffer, []⟩ := rfl

theorem process_units_all_raise (voice speed lang : String) (now : Int) (msg : String)
    (units : List String) :
    process_units voice speed lang now (fun _ => .raise msg) units [] =
      (units.map (fun _ => silence_buffer), []) := by
  induction units with
  | nil => rfl
  | cons u us ih =>
    show (let r := generate_audio_sync u voice speed lang now [] (.raise msg)
          let rest := process_units voice speed lang now (fun _ => .raise msg) us r.cache
          (r.audio :: rest.1, rest.2)) = _
    rw [generate_on_empty_cache_raise]
    dsimp only
    rw [ih]
    rfl

/-- C4: when the engine call raises and the audio-cache lookup misses,
`generate_audio_sync` swallows the exception and returns the fixed
silence buffer of `int(24000 * 0.1) = 2400` zero samples, 100ms at the
engine's 24000 Hz rate; and a batch request whose engine calls all
fail still completes successfully, returning one silence buffer per
unit, concatenated in order. -/
theorem generate_silence_on_failure :
    (∀ (text voice speed lang : String) (now : Int) (c : AudioCache) (msg : String),
      (get_cached_audio (get_audio_cache_key text voice speed lang) now c).1 = none →
      (generate_audio_sync text voice speed lang now c (.raise msg)).audio =
        List.replicate 2400 0) ∧
    (∀ (text : String) (units : List String) (voice speed lang : String) (now : Int)
      (msg : String), units ≠ [] →
      tts_batch text units voice speed lang now [] (fun _ => .raise msg) =
        Except.ok ((units.map (fun _ => silence_buffer)).flatten)) := by
  constructor
  · intro text voice speed lang now c msg hmiss
    unfold generate_audio_sync
    have heta : ((get_cached_audio (get_audio_cache_key text voice speed lang) now c).1,
        (get_cached_audio (get_audio_cache_key text voice speed lang) now c).2) =
        get_cached_audio (get_audio_cache_key text voice speed lang) now c := rfl
    rw [hmiss] at heta
    dsimp only
    rw [← heta]
    rfl
  · intro text units voice speed lang now msg hne
    unfold tts_batch
    by_cases hone : units.length = 1
    · rw [if_pos hone]
      match units, hone with
      | [u], _ =>
        rw [generate_on_empty_cache_raise]
        show Except.ok silence_buffer = _
        simp
    · rw [if_neg hone]
      rw [process_units_all_raise]
      dsimp only
      have hfilter : (units.map (fun _ => silence_buffer)).filter
          (fun a => 0 < a.length) = units.map (fun _ => silence_buffer) := by
        apply List.filter_eq_self.mpr
        intro a ha
        rcases List.mem_map.mp ha with ⟨u, hu, h⟩
        subst h
        have hlen : (0 : Nat) < silence_buffer.length := by
          simp only [silence_buffer, List.length_replicate]
          omega
        simpa using hlen
      rw [hfilter]
      rw [if_neg (by simp [hne])]

/-- Witness for `generate_silence_on_failure`: a concrete failing unit
on an empty cache, and a two-unit batch whose engine always raises. -/
theorem generate_silence_on_failure_witness :
    ((get_cached_audio (get_audio_cache_key "x" "v" "1.0" "a") 0 []).1 = none ∧
      (generate_audio_sync "x" "v" "1.0" "a" 0 [] (.raise "boom")).audio =
        List.replicate 2400 0) ∧
    ((["u1", "u2"] : List String) ≠ [] ∧
      tts_batch "t" ["u1", "u2"] "v" "1.0" "a" 0 [] (fun _ => .raise "boom") =
        Except.ok (((["u1", "u2"] : List String).map (fun _ => silence_buffer)).flatten)) :=
  ⟨⟨rfl, generate_silence_on_failure.1 "x" "v" "1.0" "a" 0 [] "boom" rfl⟩,
    ⟨by decide, generate_silence_on_failure.2 "t" ["u1", "u2"] "v" "1.0" "a" 0 "boom"
      (by decide)⟩⟩

/-! ## Claim C10 -/

/-- C10 fails in one corner: when the engine yields a nonempty list of
segments that are all empty, `if audio_list:` is truthy yet
`np.concatenate(audio_list)` is the empty array, which is returned
(and cached); so the result is not always non-empty. -/
theorem generate_audio_sync_empty_result :
    (generate_audio_sync "x" "v" "1.0" "a" 0 [] (.ok [[]])).audio = [] := rfl

theorem get_cached_audio_some (k : String) (now : Int) (c : AudioCache) (a : List Int)
    (h : (get_cached_audio k now c).1 = some a) : ∃ ts, dictGet k c = some (a, ts) := by
  unfold get_cached_audio at h
  match hf : dictGet k c with
  | some (audio, ts) =>
    rw [hf] at h
    dsimp only at h
    by_cases httl : now - ts < cacheTTL
    · rw [if_pos httl] at h
      simp only [Prod.fst] at h
      refine ⟨ts, ?_⟩
      have haudio : audio = a := by simpa using h
      rw [haudio]
    · rw [if_neg httl] at h
      simp at h
  | none =>
    rw [hf] at h
    simp at h

/-- C10 amended: `generate_audio_sync` is total by construction (the
translation of its `try/except` returns a value on every outcome), and
its result is non-empty provided every cached entry is non-empty and
the engine outcome is a failure, an empty segment list, or segments
carrying at least one sample.  The only empty results arise from a
nonempty segment list whose concatenation is empty, or a cache hit on
such a result. -/
theorem generate_audio_sync_nonempty (text voice speed lang : String) (now : Int)
    (c : AudioCache) (eng : EngineOutcome)
    (hc : ∀ p ∈ c, p.2.1 ≠ [])
    (heng : ∀ segs, eng = .ok segs → segs = [] ∨ segs.flatten ≠ []) :
    (generate_audio_sync text voice speed lang now c eng).audio ≠ [] := by
  have hsil : silence_buffer ≠ [] := by
    apply List.length_pos.mp
    simp only [silence_buffer, List.length_replicate]
    omega
  unfold generate_audio_sync
  match hg : (get_cached_audio (get_audio_cache_key text voice speed lang) now c).1 with
  | some a =>
    have heta : ((get_cached_audio (get_audio_cache_key text voice speed lang) now c).1,
        (get_cached_audio (get_audio_cache_key text voice speed lang) now c).2) =
        get_cached_audio (get_audio_cache_key text voice speed lang) now c := rfl
    rw [hg] at heta
    dsimp only
    rw [← heta]
    rcases get_cached_audio_some _ now c a hg with ⟨ts, hget⟩
    rcases dictGet_mem _ c _ hget with ⟨p, hp, hp2, _⟩
    have := hc p hp
    rw [hp2] at this
    simpa using this
  | none =>
    have heta : ((get_cached_audio (get_audio_cache_key text voice speed lang) now c).1,
        (get_cached_audio (get_audio_cache_key text voice speed lang) now c).2) =
        get_cached_audio (get_audio_cache_key text voice speed lang) now c := rfl
    rw [hg] at heta
    dsimp only
    rw [← heta]
    match eng with
    | .raise msg => exact hsil
    | .ok segs =>
      by_cases hsempty : segs.isEmpty
      · dsimp only
        rw [if_pos hsempty]
        exact hsil
      · dsimp only
        rw [if_neg hsempty]
        rcases heng segs rfl with h1 | h2
        · rw [h1] at hsempty
          simp at hsempty
        · exact h2

/-- Witness for `generate_audio_sync_nonempty`: a cache with one
non-empty entry and an engine outcome carrying one sample. -/
theorem generate_audio_sync_nonempty_witness :
    ((∀ p ∈ ([("k", ([5], 0))] : AudioCache), p.2.1 ≠ []) ∧
      (∀ segs, EngineOutcome.ok [[1], [2]] = EngineOutcome.ok segs →
        segs = [] ∨ segs.flatten ≠ ([] : List Int))) ∧
    (generate_audio_sync "x" "v" "1.0" "a" 0 [("k", ([5], 0))]
      (.ok [[1], [2]])).audio ≠ [] :=
  ⟨⟨by decide, by intro segs hs; cases hs; right; decide⟩,
    generate_audio_sync_nonempty "x" "v" "1.0" "a" 0 [("k", ([5], 0))] (.ok [[1], [2]])
      (by decide) (by intro segs hs; cases hs; right; decide)⟩

/-! ## Claim C8 -/

/-- C8 fails on the code: the pre-hash content joins the components
with ':' without any escaping, so distinct (text, parameters) tuples
can produce the same content string and hence the same MD5 key; the
text "a:b" with voice "v" collides with the text "a" with voice
"b:v". -/
theorem get_audio_cache_key_collision :
    get_audio_cache_key "a:b" "v" "1.0" "e" = get_audio_cache_key "a" "b:v" "1.0" "e" ∧
    (("a:b", "v") : String × String) ≠ ("a", "b:v") :=
  ⟨rfl, by decide⟩

theorem append_colon_inj (a : List Char) :
    ∀ (b x y : List Char), ':' ∉ a → ':' ∉ b →
      a ++ ':' :: x = b ++ ':' :: y → a = b ∧ x = y := by
  induction a with
  | nil =>
    intro b x y _ hb h
    match b with
    | [] => simpa using h
    | d :: bs =>
      rw [List.nil_append, List.cons_append] at h
      injection h with h1 h2
      exact absurd (h1 ▸ List.mem_cons_self d bs) hb
  | cons c as ih =>
    intro b x y ha hb h
    match b with
    | [] =>
      rw [List.nil_append, List.cons_append] at h
      injection h with h1 h2
      exact absurd (h1 ▸ List.mem_cons_self c as) ha
    | d :: bs =>
      rw [List.cons_append, List.cons_append] at h
      injection h with h1 h2
      have ha2 : ':' ∉ as := fun hmem => ha (List.mem_cons_of_mem c hmem)
      have hb2 : ':' ∉ bs := fun hmem => hb (List.mem_cons_of_mem d hmem)
      obtain ⟨e1, e2⟩ := ih bs x y ha2 hb2 h2
      exact ⟨by rw [h1, e1], e2⟩

theorem cacheKeyContent_inj (t v s l t2 v2 s2 l2 : List Char)
    (ht : ':' ∉ t) (hv : ':' ∉ v) (hs : ':' ∉ s)
    (ht2 : ':' ∉ t2) (hv2 : ':' ∉ v2) (hs2 : ':' ∉ s2)
    (h : cacheKeyContent t v s l = cacheKeyContent t2 v2 s2 l2) :
    t = t2 ∧ v = v2 ∧ s = s2 ∧ l = l2 := by
  unfold cacheKeyContent at h
  obtain ⟨h1, h2⟩ := append_colon_inj t t2 _ _ ht ht2 h
  obtain ⟨h3, h4⟩ := append_colon_inj v v2 _ _ hv hv2 h2
  obtain ⟨h5, h6⟩ := append_colon_inj s s2 _ _ hs hs2 h4
  exact ⟨h1, h3, h5, h6⟩

/-- C8 amended: the key is deterministic, componentwise-equal tuples
give equal keys; and the no-collision guarantee holds at the pre-hash
content level for colon-free components: tuples whose text, voice,
formatted speed and lang contain no ':' and that differ in any
component produce different content strings, hence different keys up
to MD5 collisions.  Without the colon-free restriction distinct tuples
can share a key, because the colon join is unescaped. -/
theorem get_audio_cache_key_amended (t v s l t2 v2 s2 l2 : String)
    (ht : ':' ∉ t.toList) (hv : ':' ∉ v.toList) (hs : ':' ∉ s.toList)
    (ht2 : ':' ∉ t2.toList) (hv2 : ':' ∉ v2.toList) (hs2 : ':' ∉ s2.toList) :
    (t = t2 → v = v2 → s = s2 → l = l2 →
      get_audio_cache_key t v s l = get_audio_cache_key t2 v2 s2 l2) ∧
    ((t, v, s, l) ≠ (t2, v2, s2, l2) →
      cacheKeyContent t.toList v.toList s.toList l.toList ≠
        cacheKeyContent t2.toList v2.toList s2.toList l2.toList) := by
  constructor
  · intro h1 h2 h3 h4
    rw [h1, h2, h3, h4]
  · intro hne hcontent
    obtain ⟨e1, e2, e3, e4⟩ :=
      cacheKeyContent_inj _ _ _ _ _ _ _ _ ht hv hs ht2 hv2 hs2 hcontent
    apply hne
    rw [show t = t2 from String.ext e1, show v = v2 from String.ext e2,
      show s = s2 from String.ext e3, show l = l2 from String.ext e4]

/-- Witness for `get_audio_cache_key_amended`: two realistic colon-free
tuples differing in the text component. -/
theorem get_audio_cache_key_amended_witness :
    (':' ∉ "hola".toList ∧ ':' ∉ "af_heart".toList ∧ ':' ∉ "1.0".toList ∧
      ':' ∉ "hole".toList) ∧
    (("hola", "af_heart", "1.0", "e") ≠
      (("hole", "af_heart", "1.0", "e") : String × String × String × String)) ∧
    cacheKeyContent "hola".toList "af_heart".toList "1.0".toList "e".toList ≠
      cacheKeyContent "hole".toList "af_heart".toList "1.0".toList "e".toList :=
  ⟨⟨by decide, by decide, by decide, by decide⟩, by decide,
    (get_audio_cache_key_amended "hola" "af_heart" "1.0" "e" "hole" "af_heart" "1.0" "e"
      (by decide) (by decide) (by decide) (by decide) (by decide) (by decide)).2
      (by decide)⟩

/-! ## Claim C1 -/

theorem find?_runSchedule (f : Nat → List Int) (order : List Nat) (i : Nat)
    (hi : i ∈ order) :
    (runSchedule f order).find? (fun p => p.1 == i) = some (i, f i) := by
  induction order with
  | nil => cases hi
  | cons j rest ih =>
    show ((j, f j) :: runSchedule f rest).find? (fun p => p.1 == i) = _
    by_cases hj : j = i
    · subst hj
      rw [List.find?_cons_of_pos _ (by simp)]
    · rw [List.find?_cons_of_neg _ (by simpa using hj)]
      refine ih ?_
      rcases List.mem_cons.mp hi with h | h
      · exact absurd h.symm hj
      · exact h

theorem gatherReassemble_runSchedule (n : Nat) (f : Nat → List Int) (order : List Nat)
    (hperm : List.Perm order (List.range n)) :
    gatherReassemble n (runSchedule f order) = some ((List.range n).map f) := by
  unfold gatherReassemble
  have hmem : ∀ i ∈ List.range n, i ∈ order := fun i hi => (hperm.mem_iff).mpr hi
  have hgen : ∀ l : List Nat, (∀ i ∈ l, i ∈ order) →
      l.mapM (fun i => ((runSchedule f order).find? (fun p => p.1 == i)).map
        (fun p => p.2)) = some (l.map f) := by
    intro l
    induction l with
    | nil => intro _; rfl
    | cons i rest ih =>
      intro hl
      rw [List.mapM_cons, find?_runSchedule f order i (hl i (List.mem_cons_self i rest)),
        ih (fun j hj => hl j (List.mem_cons_of_mem i hj))]
      rfl
  exact hgen (List.range n) hmem

theorem streamEmitted_sublist (n : Nat) (data : Nat → String) (k : Nat) :
    List.Sublist ((streamEmitted (producerQueue n data) k).map Prod.fst)
      (List.range n) := by
  unfold streamEmitted producerQueue
  rw [← List.map_take, List.filter_map, List.map_map]
  have hcomp : (Prod.fst ∘ fun i => (i, data i)) = fun i : Nat => i := rfl
  rw [hcomp, List.map_id']
  exact (List.filter_sublist _).trans (List.take_sublist k (List.range n))

/-- C1: in batch mode, `asyncio.gather` reassembles worker results by
index, so for every completion order (any permutation of the unit
indices) the returned list is the in-order sequence of per-unit
results: the concatenated batch follows input unit order no matter
which worker finishes first.  In stream mode the producer enqueues
`(index, data)` pairs in index order and the consumer emits a prefix
of the queue in order, skipping empty payloads, so the emitted indices
are an increasing subsequence of the input order, never a
reordering. -/
theorem output_order_matches_input (n : Nat) (f : Nat → List Int) (order : List Nat)
    (data : Nat → String) (k : Nat) (hperm : List.Perm order (List.range n)) :
    gatherReassemble n (runSchedule f order) = some ((List.range n).map f) ∧
    List.Sublist ((streamEmitted (producerQueue n data) k).map Prod.fst)
      (List.range n) :=
  ⟨gatherReassemble_runSchedule n f order hperm, streamEmitted_sublist n data k⟩

/-- Witness for `output_order_matches_input`: three units completing in
the order 2, 0, 1, and a stream consuming two queue items where unit 1
produced empty bytes. -/
theorem output_order_matches_input_witness :
    List.Perm [2, 0, 1] (List.range 3) ∧
    gatherReassemble 3 (runSchedule (fun i => [(i : Int)]) [2, 0, 1]) =
      some ((List.range 3).map (fun i => [(i : Int)])) ∧
    List.Sublist ((streamEmitted (producerQueue 3
      (fun i => if i = 1 then "" else "d")) 2).map Prod.fst) (List.range 3) :=
  ⟨by decide,
    (output_order_matches_input 3 (fun i => [(i : Int)]) [2, 0, 1]
      (fun i => if i = 1 then "" else "d") 2 (by decide)).1,
    (output_order_matches_input 3 (fun i => [(i : Int)]) [2, 0, 1]
      (fun i => if i = 1 then "" else "d") 2 (by decide)).2⟩

/-! ## Claim C9 -/

/-- C9: every streaming response ends with the terminator frame
(closing boundary), in the three outcomes the code produces (full
success, consumer timeout, fatal error); and on a fatal mid-stream
error exactly one fragment of content-type text/plain carrying the
error message is emitted, immediately before the terminator, every
earlier frame being an audio fragment. -/
theorem wav_stream_always_terminates (q : List (Nat × String)) (sc : StreamScenario) :
    (wav_stream_frames q sc).getLast? = some StreamFrame.terminator ∧
    (∀ k msg, sc = StreamScenario.fatal k msg →
      ∃ pre, wav_stream_frames q sc =
          pre ++ [part "text/plain; charset=utf-8" ("Error: " ++ msg),
            StreamFrame.terminator] ∧
        ∀ fr ∈ pre, isTextPlain fr = false) := by
  constructor
  · match sc with
    | .success =>
      show (audioFrames q q.length ++ [StreamFrame.terminator]).getLast? = _
      rw [List.getLast?_concat]
    | .timeout k =>
      show (audioFrames q k ++ [StreamFrame.terminator]).getLast? = _
      rw [List.getLast?_concat]
    | .fatal k msg =>
      show (audioFrames q k ++ [part "text/plain; charset=utf-8" ("Error: " ++ msg),
        StreamFrame.terminator]).getLast? = _
      rw [show audioFrames q k ++ [part "text/plain; charset=utf-8" ("Error: " ++ msg),
          StreamFrame.terminator] = (audioFrames q k ++ [part "text/plain; charset=utf-8"
          ("Error: " ++ msg)]) ++ [StreamFrame.terminator] from by
        rw [List.append_assoc]
        rfl]
      rw [List.getLast?_concat]
  · intro k msg hsc
    subst hsc
    refine ⟨audioFrames q k, rfl, ?_⟩
    intro fr hfr
    rcases List.mem_map.mp hfr with ⟨p, hp, hfr2⟩
    rw [← hfr2]
    show ("audio/wav" == "text/plain; charset=utf-8") = false
    decide

/-- Witness for `wav_stream_always_terminates`: a one-item queue ending
in a fatal error after the first fragment. -/
theorem wav_stream_always_terminates_witness :
    (wav_stream_frames [(0, "d")] (StreamScenario.fatal 1 "boom")).getLast? =
      some StreamFrame.terminator ∧
    ∃ pre, wav_stream_frames [(0, "d")] (StreamScenario.fatal 1 "boom") =
        pre ++ [part "text/plain; charset=utf-8" ("Error: " ++ "boom"),
          StreamFrame.terminator] ∧
      ∀ fr ∈ pre, isTextPlain fr = false :=
  ⟨(wav_stream_always_terminates [(0, "d")] (StreamScenario.fatal 1 "boom")).1,
    (wav_stream_always_terminates [(0, "d")] (StreamScenario.fatal 1 "boom")).2 1 "boom" rfl⟩

/-! ## Claim C3 -/

/-- C3: for every input text and every positive bound `max_words` (the
request model enforces `max_chunk_words >= 5`; Python raises on a zero
step), every unit returned by `smart_text_split` has at most
`max_words` words, counted the way the code counts
(`len(unit.split())`).  The claim's exception for a single indivisible
token never fires in this measure, a single token being one word, so
the bound holds without exception. -/
theorem smart_text_split_unit_bound (text : List Char) (m : Nat) (hm : 1 ≤ m)
    (c : List Char) (hc : c ∈ smart_text_split text m) : wordCount c ≤ m := by
  have hfold : wordsBounded m
      ((splitSentences (pyStrip text)).foldl (processSentence m) ⟨[], []⟩) :=
    foldl_processSentence_bounded m _ _
      ⟨fun x hx => absurd hx (List.not_mem_nil x), by simp [wordCount, pyWords, pyWordsAux]⟩
  set st := (splitSentences (pyStrip text)).foldl (processSentence m) ⟨[], []⟩ with hstdef
  have heq : smart_text_split text m =
      (if pyStrip st.cur ≠ [] then st.chunks ++ [pyStrip st.cur] else st.chunks).filter
        (fun x => pyStrip x ≠ []) := rfl
  rw [heq] at hc
  have hc2 := (List.mem_filter.mp hc).1
  by_cases hcur : pyStrip st.cur ≠ []
  · rw [if_pos hcur] at hc2
    rcases List.mem_append.mp hc2 with h1 | h2
    · exact hfold.1 c h1
    · rw [List.mem_singleton] at h2
      subst h2
      rw [wordCount_strip]
      exact hfold.2
  · rw [if_neg hcur] at hc2
    exact hfold.1 c hc2

/-- Witness for `smart_text_split_unit_bound`: the scenario input of
the spec, bound 30, and its single returned unit. -/
theorem smart_text_split_unit_bound_witness :
    1 ≤ 30 ∧
    "Hello world This is a test.".toList ∈
      smart_text_split "Hello world. This is a test.".toList 30 ∧
    wordCount "Hello world This is a test.".toList ≤ 30 :=
  ⟨by decide, by decide,
    smart_text_split_unit_bound "Hello world. This is a test.".toList 30 (by decide)
      "Hello world This is a test.".toList (by decide)⟩

/-! ## Claim C2 -/

/-- C2 fails on the code: the sentence split `re.split(r'[.!?]+\s+', ...)`
discards the matched punctuation, and the oversized-sentence path
appends its word groups to `chunks` while earlier text is still
buffered in `current_chunk`, reordering content.  On
"one two. a b c d e f" with bound 5 the output is
["a b c d e", "f", "one two"]: the period is dropped and "one two"
has moved behind the later sentence. -/
theorem smart_text_split_not_reconstructing :
    smart_text_split "one two. a b c d e f".toList 5 =
      ["a b c d e".toList, "f".toList, "one two".toList] ∧
    nonWS (joinSp (smart_text_split "one two. a b c d e f".toList 5)) ≠
      nonWS "one two. a b c d e f".toList :=
  ⟨by decide, by decide⟩

/-- C2 amended: provided no sentence produced by the sentence split
exceeds `max_words` words (so the reordering comma/word fallback is
never entered), the units concatenated in index order reconstruct the
original text modulo whitespace normalization and modulo the
sentence-terminal separators (runs of `.!?` followed by whitespace)
that `re.split` removes; no other non-whitespace content is dropped or
reordered. -/
theorem smart_text_split_reconstructs (text : List Char) (m : Nat)
    (h : ∀ s ∈ splitSentences (pyStrip text), (pyWords s).length ≤ m) :
    nonWS (joinSp (smart_text_split text m)) =
      nonWS (joinSp (splitSentences (pyStrip text))) := by
  rw [nonWS_joinSp, nonWS_joinSp]
  set st := (splitSentences (pyStrip text)).foldl (processSentence m) ⟨[], []⟩ with hstdef
  have heq : smart_text_split text m =
      (if pyStrip st.cur ≠ [] then st.chunks ++ [pyStrip st.cur] else st.chunks).filter
        (fun x => pyStrip x ≠ []) := rfl
  rw [heq, flatten_map_nonWS_filter]
  have hfold := foldl_processSentence_content m (splitSentences (pyStrip text)) h ⟨[], []⟩
  rw [← hstdef] at hfold
  have hinit : stateContent ⟨[], []⟩ = ([] : List Char) := rfl
  rw [hinit, List.nil_append] at hfold
  by_cases hcur : pyStrip st.cur ≠ []
  · rw [if_pos hcur]
    have hasm : ((st.chunks ++ [pyStrip st.cur]).map nonWS).flatten = stateContent st := by
      unfold stateContent
      rw [List.map_append, List.flatten_append]
      simp [nonWS_strip]
    rw [hasm, hfold]
  · rw [if_neg hcur]
    have hnil : nonWS st.cur = [] := nonWS_of_strip_nil _ (Decidable.of_not_not hcur)
    have hasm : (st.chunks.map nonWS).flatten = stateContent st := by
      unfold stateContent
      rw [hnil, List.append_nil]
    rw [hasm, hfold]

/-- Witness for `smart_text_split_reconstructs`: the scenario input of
the spec with bound 30, where both sentences have at most 30 words. -/
theorem smart_text_split_reconstructs_witness :
    (∀ s ∈ splitSentences (pyStrip "Hello world. This is a test.".toList),
      (pyWords s).length ≤ 30) ∧
    nonWS (joinSp (smart_text_split "Hello world. This is a test.".toList 30)) =
      nonWS (joinSp (splitSentences (pyStrip "Hello world. This is a test.".toList))) :=
  ⟨by decide, smart_text_split_reconstructs "Hello world. This is a test.".toList 30
    (by decide)⟩

end SoulGate
